import Mathlib

/-!
# Topic-based publish/subscribe broker (`pub_sub/complex/agent.go`)

A shallow embedding of the `Agent` broker and of the part of the Go runtime it
relies on (unbuffered `chan string` values, `make`, send, `close`).

Modelling decisions.

* Every public operation of `Agent` holds `a.mu` for its whole body, so the
  operations are atomic with respect to each other; an execution of the broker
  is a sequence of whole operations, and each operation is a function on the
  state.
* A channel is identified by the order in which `make` created it.  For each
  channel the heap stores whether it has been closed and the messages handed
  off on it so far (oldest first).  A send on an unbuffered channel completes
  when the receiving side takes the value; the model records a completed
  hand-off, i.e. it describes the executions in which the receivers do read.
* Sending on a closed channel and closing a closed channel panic in Go; they
  are the `Failure` results here.
* A Go map has no iteration order.  The registry is an association list; the
  order of that list stands for whichever order `range a.subs` picks, and
  `closeTopics_perm` shows that a successful `Close` does not depend on it.
-/

namespace PubSub

/-- Run-time failures of the channel operations used by the broker. -/
inductive Failure where
  | sendOnClosedChannel
  | closeOfClosedChannel
  | nilChannel
  deriving DecidableEq

/-- Runtime state of one `chan string`: the closed flag and the messages
handed off on it so far, oldest first. -/
structure Chan where
  closed : Bool
  received : List String
  deriving DecidableEq

/-- The channels made so far (a channel is named by its position) and the
global sequence of completed hand-offs `(channel, message)`, oldest first. -/
structure Heap where
  chans : List Chan
  sends : List (Nat × String)
  deriving DecidableEq

/-- The fields of `type Agent struct`: `subs` is the map from topic to the
slice of subscriber channels, `quit` tells whether the `quit` channel has been
closed, `closed` is the closed flag.  (`mu` is accounted for by atomicity.) -/
structure Agent where
  subs : List (String × List Nat)
  quit : Bool
  closed : Bool
  deriving DecidableEq

/-- A broker together with the channels it created. -/
structure World where
  agent : Agent
  heap : Heap
  deriving DecidableEq

/-- The Go expression `make(chan string)`: a new open channel on which nothing has been handed off. -/
def Heap.make (h : Heap) : Nat × Heap :=
  (h.chans.length, { h with chans := h.chans ++ [{ closed := false, received := [] }] })

/-- The Go statement `c <- msg` on a channel whose receiver takes the value. -/
def Heap.send (h : Heap) (c : Nat) (msg : String) : Except Failure Heap :=
  match h.chans[c]? with
  | none => .error .nilChannel
  | some ch =>
    if ch.closed then .error .sendOnClosedChannel
    else .ok { chans := h.chans.set c { ch with received := ch.received ++ [msg] },
               sends := h.sends ++ [(c, msg)] }

/-- The Go statement `close(c)`. -/
def Heap.close (h : Heap) (c : Nat) : Except Failure Heap :=
  match h.chans[c]? with
  | none => .error .nilChannel
  | some ch =>
    if ch.closed then .error .closeOfClosedChannel
    else .ok { h with chans := h.chans.set c { ch with closed := true } }

/-- Whether the map has an entry for the key (`_, ok := m[k]`). -/
def lookup : List (String × List Nat) → String → Option (List Nat)
  | [], _ => none
  | (k', v) :: rest, k => if k' = k then some v else lookup rest k

/-- The map read `m[k]`: the nil slice when the key is absent. -/
def index (m : List (String × List Nat)) (k : String) : List Nat :=
  (lookup m k).getD []

/-- The map write `m[k] = v`. -/
def assign : List (String × List Nat) → String → List Nat → List (String × List Nat)
  | [], k, v => [(k, v)]
  | (k', v') :: rest, k, v =>
    if k' = k then (k, v) :: rest else (k', v') :: assign rest k v

/-- All channels held by the map, topic by topic. -/
def endpoints : List (String × List Nat) → List Nat
  | [] => []
  | (_, cs) :: rest => cs ++ endpoints rest

/-- The constructor `NewAgent`: empty map, open `quit` channel, `closed` false; no channel made yet. -/
def NewAgent : World :=
  { agent := { subs := [], quit := false, closed := false },
    heap := { chans := [], sends := [] } }

/-- The loop `for _, subscriberChannel := range a.subs[topic] { subscriberChannel <- msg }`. -/
def sendEach (msg : String) : List Nat → Heap → Except Failure Heap
  | [], h => .ok h
  | c :: cs, h =>
    match h.send c msg with
    | .ok h' => sendEach msg cs h'
    | .error e => .error e

/-- The method `Agent.Publish`. -/
def Publish (topic msg : String) (w : World) : Except Failure World :=
  if w.agent.closed then .ok w
  else
    match sendEach msg (index w.agent.subs topic) w.heap with
    | .ok h => .ok { w with heap := h }
    | .error e => .error e

/-- The method `Agent.Subscribe`: returns the new channel and the new state. -/
def Subscribe (topic : String) (w : World) : Nat × World :=
  let r := w.heap.make
  (r.1, { agent := { w.agent with
                       subs := assign w.agent.subs topic (index w.agent.subs topic ++ [r.1]) },
          heap := r.2 })

/-- The inner loop of `Close`: `for _, subscriberChannel := range ... { close(subscriberChannel) }`. -/
def closeEach : List Nat → Heap → Except Failure Heap
  | [], h => .ok h
  | c :: cs, h =>
    match h.close c with
    | .ok h' => closeEach cs h'
    | .error e => .error e

/-- The outer loop of `Close`: `for _, subscriberChannelForATopic := range a.subs`. -/
def closeTopics : List (String × List Nat) → Heap → Except Failure Heap
  | [], h => .ok h
  | (_, cs) :: rest, h =>
    match closeEach cs h with
    | .ok h' => closeTopics rest h'
    | .error e => .error e

/-- The method `Agent.Close`. -/
def Close (w : World) : Except Failure World :=
  if w.agent.closed then .ok w
  else if w.agent.quit then .error .closeOfClosedChannel
  else
    match closeTopics w.agent.subs w.heap with
    | .ok h => .ok { agent := { w.agent with closed := true, quit := true }, heap := h }
    | .error e => .error e

/-- A call of one of the three public operations. -/
inductive Op where
  | publish (topic msg : String)
  | subscribe (topic : String)
  | close
  deriving DecidableEq

/-- Effect of one call on the state (the channel returned by `Subscribe` is dropped). -/
def step (o : Op) (w : World) : Except Failure World :=
  match o with
  | .publish t m => Publish t m w
  | .subscribe t => .ok (Subscribe t w).2
  | .close => Close w

/-- Effect of a sequence of calls, stopping at the first failure. -/
def run : List Op → World → Except Failure World
  | [], w => .ok w
  | o :: os, w =>
    match step o w with
    | .ok w' => run os w'
    | .error e => .error e

/-- States the broker can be in: those produced from `NewAgent` by calls of
`Publish`, `Subscribe` and `Close`. -/
def Reachable (w : World) : Prop := ∃ ops, run ops NewAgent = .ok w

/-- The channel is allocated and not closed. -/
def isOpen (h : Heap) (c : Nat) : Prop := ∃ ch, h.chans[c]? = some ch ∧ ch.closed = false

/-- The channel is allocated and closed: a receive on it reports end-of-stream. -/
def isClosed (h : Heap) (c : Nat) : Prop := ∃ ch, h.chans[c]? = some ch ∧ ch.closed = true

/-- Messages handed off on the channel so far (none for a channel not yet made). -/
def received (h : Heap) (c : Nat) : List String :=
  match h.chans[c]? with
  | some ch => ch.received
  | none => []

/-- The messages published to topic `t` by a sequence of calls, in order. -/
def publishedTo (t : String) : List Op → List String
  | [] => []
  | .publish t' m :: os => if t' = t then m :: publishedTo t os else publishedTo t os
  | _ :: os => publishedTo t os

/-- The sequence contains no call of `Close`. -/
def noClose : List Op → Bool
  | [] => true
  | .close :: _ => false
  | _ :: os => noClose os

/-! ## The invariant -/

/-- What every state of the broker satisfies: the channels in the map are
pairwise distinct and were made by the broker, and while the broker is open
the `quit` channel and every channel in the map are open. -/
structure Inv (w : World) : Prop where
  nodup : (endpoints w.agent.subs).Nodup
  alloc : ∀ c ∈ endpoints w.agent.subs, c < w.heap.chans.length
  quitOpen : w.agent.closed = false → w.agent.quit = false
  chansOpen : w.agent.closed = false → ∀ c ∈ endpoints w.agent.subs, isOpen w.heap c

/-! ## Sample states and call sequences -/

/-- Two subscribers on "foo" and one on "bar"; the broker is open. -/
def sampleOps : List Op := [.subscribe "foo", .subscribe "bar", .subscribe "foo"]

/-- The state reached by `sampleOps`. -/
def sampleOpen : World :=
  { agent := { subs := [("foo", [0, 2]), ("bar", [1])], quit := false, closed := false },
    heap := { chans := [⟨false, []⟩, ⟨false, []⟩, ⟨false, []⟩], sends := [] } }

/-- The state reached by `sampleOps` followed by `Close`. -/
def sampleClosed : World :=
  { agent := { subs := [("foo", [0, 2]), ("bar", [1])], quit := true, closed := true },
    heap := { chans := [⟨true, []⟩, ⟨true, []⟩, ⟨true, []⟩], sends := [] } }

/-- The calls made by `main` up to and including its `Publish`. -/
def mainOps : List Op := [.subscribe "foo", .publish "foo" "hello world"]

/-- The state of `main` just before it calls `Close`. -/
def mainBeforeClose : World :=
  { agent := { subs := [("foo", [0])], quit := false, closed := false },
    heap := { chans := [⟨false, ["hello world"]⟩], sends := [(0, "hello world")] } }

/-- Calls mixing publishes to "foo" with a publish to "bar" and new subscriptions. -/
def sampleTraffic : List Op :=
  [Op.publish "foo" "m1", Op.subscribe "foo", Op.publish "bar" "other", Op.publish "foo" "m2",
   Op.subscribe "bar", Op.publish "foo" "m3"]

/-! ## Channel operations -/

theorem isOpen_lt {h : Heap} {c : Nat} (ho : isOpen h c) : c < h.chans.length := by
  obtain ⟨ch, hch, _⟩ := ho
  exact (List.getElem?_eq_some.mp hch).1

theorem send_ok (h : Heap) (c : Nat) (msg : String) (ho : isOpen h c) :
    ∃ h', h.send c msg = .ok h' ∧ h'.sends = h.sends ++ [(c, msg)] ∧
      ∀ i, h'.chans[i]? = (h.chans[i]?).map
        (fun ch => if i = c then { ch with received := ch.received ++ [msg] } else ch) := by
  have hlt := isOpen_lt ho
  obtain ⟨ch, hch, hcl⟩ := ho
  refine ⟨{ chans := h.chans.set c { ch with received := ch.received ++ [msg] },
            sends := h.sends ++ [(c, msg)] }, by simp [Heap.send, hch, hcl], rfl, ?_⟩
  intro i
  by_cases hi : i = c
  · subst hi
    simp [List.getElem?_set, hlt, hch]
  · have hne : c ≠ i := fun e => hi e.symm
    simp only [List.getElem?_set_ne hne]
    cases h.chans[i]? <;> simp [hi]

theorem close_ok (h : Heap) (c : Nat) (ho : isOpen h c) :
    ∃ h', h.close c = .ok h' ∧ h'.sends = h.sends ∧
      ∀ i, h'.chans[i]? = (h.chans[i]?).map
        (fun ch => if i = c then { ch with closed := true } else ch) := by
  have hlt := isOpen_lt ho
  obtain ⟨ch, hch, hcl⟩ := ho
  refine ⟨{ h with chans := h.chans.set c { ch with closed := true } },
    by simp [Heap.close, hch, hcl], rfl, ?_⟩
  intro i
  by_cases hi : i = c
  · subst hi
    simp [List.getElem?_set, hlt, hch]
  · have hne : c ≠ i := fun e => hi e.symm
    simp only [List.getElem?_set_ne hne]
    cases h.chans[i]? <;> simp [hi]

theorem close_ok_inv {h h' : Heap} {c : Nat} (hc : h.close c = .ok h') : isOpen h c := by
  unfold Heap.close at hc
  cases hch : h.chans[c]? with
  | none => simp [hch] at hc
  | some ch =>
    cases hcl : ch.closed with
    | true => simp [hch, hcl] at hc
    | false => exact ⟨ch, hch, hcl⟩

/-! ## The two loops -/

theorem sendEach_ok (msg : String) : ∀ (cs : List Nat) (h : Heap),
    (∀ c ∈ cs, isOpen h c) → cs.Nodup →
    ∃ h', sendEach msg cs h = .ok h' ∧ h'.sends = h.sends ++ cs.map (fun c => (c, msg)) ∧
      ∀ i, h'.chans[i]? = (h.chans[i]?).map
        (fun ch => if i ∈ cs then { ch with received := ch.received ++ [msg] } else ch) := by
  intro cs
  induction cs with
  | nil =>
    intro h _ _
    exact ⟨h, rfl, by simp, fun i => by cases h.chans[i]? <;> simp⟩
  | cons c cs ih =>
    intro h hopen hnd
    obtain ⟨h1, hs1, hsend1, hch1⟩ := send_ok h c msg (hopen c (List.mem_cons_self _ _))
    have hnd' := List.nodup_cons.mp hnd
    have hopen1 : ∀ d ∈ cs, isOpen h1 d := by
      intro d hd
      obtain ⟨ch, hch, hcl⟩ := hopen d (List.mem_cons_of_mem _ hd)
      have hne : d ≠ c := fun e => hnd'.1 (e ▸ hd)
      exact ⟨ch, by simp [hch1, hch, hne], hcl⟩
    obtain ⟨h2, hs2, hsend2, hch2⟩ := ih h1 hopen1 hnd'.2
    refine ⟨h2, by simp [sendEach, hs1, hs2], by simp [hsend2, hsend1], ?_⟩
    intro i
    rw [hch2, hch1]
    cases h.chans[i]? with
    | none => rfl
    | some ch =>
      by_cases hi : i = c
      · subst hi
        simp [hnd'.1]
      · simp [hi]

theorem closeEach_ok : ∀ (cs : List Nat) (h : Heap),
    (∀ c ∈ cs, isOpen h c) → cs.Nodup →
    ∃ h', closeEach cs h = .ok h' ∧ h'.sends = h.sends ∧
      ∀ i, h'.chans[i]? = (h.chans[i]?).map
        (fun ch => if i ∈ cs then { ch with closed := true } else ch) := by
  intro cs
  induction cs with
  | nil =>
    intro h _ _
    exact ⟨h, rfl, rfl, fun i => by cases h.chans[i]? <;> simp⟩
  | cons c cs ih =>
    intro h hopen hnd
    obtain ⟨h1, hs1, hsend1, hch1⟩ := close_ok h c (hopen c (List.mem_cons_self _ _))
    have hnd' := List.nodup_cons.mp hnd
    have hopen1 : ∀ d ∈ cs, isOpen h1 d := by
      intro d hd
      obtain ⟨ch, hch, hcl⟩ := hopen d (List.mem_cons_of_mem _ hd)
      have hne : d ≠ c := fun e => hnd'.1 (e ▸ hd)
      exact ⟨ch, by simp [hch1, hch, hne], hcl⟩
    obtain ⟨h2, hs2, hsend2, hch2⟩ := ih h1 hopen1 hnd'.2
    refine ⟨h2, by simp [closeEach, hs1, hs2], by simp [hsend2, hsend1], ?_⟩
    intro i
    rw [hch2, hch1]
    cases h.chans[i]? with
    | none => rfl
    | some ch =>
      by_cases hi : i = c
      · subst hi
        simp [hnd'.1]
      · simp [hi]

/-- A run of the closing loop that does not fail closed pairwise distinct, open channels. -/
theorem closeEach_ok_inv : ∀ (cs : List Nat) (h h' : Heap),
    closeEach cs h = .ok h' → (∀ c ∈ cs, isOpen h c) ∧ cs.Nodup := by
  intro cs
  induction cs with
  | nil => intro h h' _; simp
  | cons c cs ih =>
    intro h h' hrun
    unfold closeEach at hrun
    cases hc : h.close c with
    | error e => simp [hc] at hrun
    | ok h1 =>
      simp only [hc] at hrun
      have ho := close_ok_inv hc
      obtain ⟨h1', hs1, _, hch1⟩ := close_ok h c ho
      have e1 : h1' = h1 := by rw [hc] at hs1; injection hs1 with e; exact e.symm
      subst e1
      obtain ⟨hopen1, hnd1⟩ := ih h1' h' hrun
      have hnotin : c ∉ cs := by
        intro hmem
        obtain ⟨ch, hch, hcl⟩ := hopen1 c hmem
        obtain ⟨ch0, hch0, _⟩ := ho
        rw [hch1, hch0] at hch
        simp at hch
        rw [← hch] at hcl
        simp at hcl
      refine ⟨?_, List.nodup_cons.mpr ⟨hnotin, hnd1⟩⟩
      intro d hd
      rcases List.mem_cons.mp hd with rfl | hd
      · exact ho
      · obtain ⟨ch, hch, hcl⟩ := hopen1 d hd
        have hne : d ≠ c := fun e => hnotin (e ▸ hd)
        rw [hch1] at hch
        cases hd0 : h.chans[d]? with
        | none => simp [hd0] at hch
        | some ch0 =>
          simp [hd0, hne] at hch
          exact ⟨ch0, hd0, hch ▸ hcl⟩

theorem closeEach_append : ∀ (as bs : List Nat) (h : Heap),
    closeEach (as ++ bs) h =
      match closeEach as h with
      | .ok h' => closeEach bs h'
      | .error e => .error e := by
  intro as
  induction as with
  | nil => intro bs h; rfl
  | cons a as ih =>
    intro bs h
    simp only [List.cons_append, closeEach]
    cases h.close a with
    | error e => rfl
    | ok h1 => exact ih bs h1

/-- The nested loops of `Close` close the channels of the map one after the other. -/
theorem closeTopics_eq : ∀ (m : List (String × List Nat)) (h : Heap),
    closeTopics m h = closeEach (endpoints m) h := by
  intro m
  induction m with
  | nil => intro h; rfl
  | cons e rest ih =>
    intro h
    obtain ⟨k, cs⟩ := e
    simp only [closeTopics, endpoints, closeEach_append]
    cases closeEach cs h with
    | error e => rfl
    | ok h1 => exact ih h1

/-! ## The map -/

theorem lookup_assign_self : ∀ (m : List (String × List Nat)) (k : String) (v : List Nat),
    lookup (assign m k v) k = some v := by
  intro m
  induction m with
  | nil => intro k v; simp [assign, lookup]
  | cons e rest ih =>
    intro k v
    obtain ⟨k', v'⟩ := e
    by_cases hk : k' = k
    · simp [assign, lookup, hk]
    · simp [assign, lookup, hk, ih]

theorem lookup_assign_ne : ∀ (m : List (String × List Nat)) (k k2 : String) (v : List Nat),
    k2 ≠ k → lookup (assign m k v) k2 = lookup m k2 := by
  intro m
  induction m with
  | nil =>
    intro k k2 v hne
    have hne' : ¬ k = k2 := fun e => hne e.symm
    simp [assign, lookup, hne']
  | cons e rest ih =>
    intro k k2 v hne
    obtain ⟨k', v'⟩ := e
    have hne' : ¬ k = k2 := fun e => hne e.symm
    by_cases hk : k' = k
    · subst hk
      simp [assign, lookup, hne']
    · by_cases hk2 : k' = k2
      · subst hk2
        simp [assign, lookup, hk]
      · simp [assign, lookup, hk, hk2, ih k k2 v hne]

theorem index_assign_self (m : List (String × List Nat)) (k : String) (v : List Nat) :
    index (assign m k v) k = v := by
  simp [index, lookup_assign_self]

theorem index_assign_ne (m : List (String × List Nat)) (k k2 : String) (v : List Nat)
    (hne : k2 ≠ k) : index (assign m k v) k2 = index m k2 := by
  simp [index, lookup_assign_ne m k k2 v hne]

theorem endpoints_assign_perm : ∀ (m : List (String × List Nat)) (k : String) (x : Nat),
    List.Perm (endpoints (assign m k (index m k ++ [x]))) (x :: endpoints m) := by
  intro m
  induction m with
  | nil => intro k x; simp [assign, endpoints, index, lookup]
  | cons e rest ih =>
    intro k x
    obtain ⟨k', v'⟩ := e
    by_cases hk : k' = k
    · simp only [assign, index, lookup, hk, if_true, Option.getD_some, endpoints]
      rw [List.append_assoc]
      exact (List.perm_middle).trans (List.Perm.refl _)
    · have hidx : index ((k', v') :: rest) k = index rest k := by simp [index, lookup, hk]
      rw [hidx]
      simp only [assign, hk, if_false, endpoints]
      exact ((ih k x).append_left v').trans List.perm_middle

theorem index_sublist : ∀ (m : List (String × List Nat)) (k : String),
    List.Sublist (index m k) (endpoints m) := by
  intro m
  induction m with
  | nil => intro k; simp [index, lookup, endpoints]
  | cons e rest ih =>
    intro k
    obtain ⟨k', v'⟩ := e
    by_cases hk : k' = k
    · simp only [index, lookup, hk, if_true, Option.getD_some, endpoints]
      exact List.sublist_append_left _ _
    · have hidx : index ((k', v') :: rest) k = index rest k := by simp [index, lookup, hk]
      rw [hidx]
      exact (ih k).trans (List.sublist_append_right _ _)

/-- With pairwise distinct channels in the map, a channel is registered under one topic only. -/
theorem index_disjoint : ∀ (m : List (String × List Nat)) (k k2 : String) (c : Nat),
    (endpoints m).Nodup → k ≠ k2 → c ∈ index m k → c ∉ index m k2 := by
  intro m
  induction m with
  | nil => intro k k2 c _ _ hc; simp [index, lookup] at hc
  | cons e rest ih =>
    intro k k2 c hnd hne hc
    obtain ⟨k', v'⟩ := e
    simp only [endpoints] at hnd
    obtain ⟨_, hnd2, hdisj⟩ := List.nodup_append.mp hnd
    by_cases hk : k' = k
    · have hk2 : ¬ k' = k2 := fun e => hne (hk ▸ e)
      have h1 : index ((k', v') :: rest) k = v' := by simp [index, lookup, hk]
      have h2 : index ((k', v') :: rest) k2 = index rest k2 := by simp [index, lookup, hk2]
      rw [h1] at hc
      rw [h2]
      exact fun hc2 => hdisj hc ((index_sublist rest k2).subset hc2)
    · have h1 : index ((k', v') :: rest) k = index rest k := by simp [index, lookup, hk]
      rw [h1] at hc
      by_cases hk2 : k' = k2
      · have h2 : index ((k', v') :: rest) k2 = v' := by simp [index, lookup, hk2]
        rw [h2]
        exact fun hc2 => hdisj hc2 ((index_sublist rest k).subset hc)
      · have h2 : index ((k', v') :: rest) k2 = index rest k2 := by simp [index, lookup, hk2]
        rw [h2]
        exact ih k k2 c hnd2 hne hc

theorem length_eq_of_pointwise {l l' : List Chan} {f : Nat → Chan → Chan}
    (hp : ∀ i, l'[i]? = (l[i]?).map (f i)) : l'.length = l.length := by
  apply le_antisymm
  · by_contra hlt
    have h1 : l[l.length]? = none := List.getElem?_eq_none (le_refl _)
    have h2 := hp l.length
    rw [h1] at h2
    simp only [Option.map_none'] at h2
    exact hlt (List.getElem?_eq_none_iff.mp h2)
  · by_contra hlt
    have h1 : l'[l'.length]? = none := List.getElem?_eq_none (le_refl _)
    have h2 := hp l'.length
    rw [h1] at h2
    have h3 : l[l'.length]? = none := by
      cases hq : l[l'.length]? with
      | none => rfl
      | some x => rw [hq] at h2; simp at h2
    exact hlt (List.getElem?_eq_none_iff.mp h3)

/-! ## The invariant is preserved -/

theorem inv_NewAgent : Inv NewAgent :=
  ⟨by simp [NewAgent, endpoints], by simp [NewAgent, endpoints], fun _ => rfl,
   by simp [NewAgent, endpoints]⟩

theorem Publish_closed (t m : String) (w : World) (hc : w.agent.closed = true) :
    Publish t m w = .ok w := by
  simp [Publish, hc]

theorem Close_closed (w : World) (hc : w.agent.closed = true) : Close w = .ok w := by
  simp [Close, hc]

theorem Publish_spec (t m : String) (w : World) (hinv : Inv w) (ho : w.agent.closed = false) :
    ∃ w', Publish t m w = .ok w' ∧ w'.agent = w.agent ∧
      w'.heap.sends = w.heap.sends ++ (index w.agent.subs t).map (fun c => (c, m)) ∧
      ∀ i, w'.heap.chans[i]? = (w.heap.chans[i]?).map
        (fun ch => if i ∈ index w.agent.subs t
          then { ch with received := ch.received ++ [m] } else ch) := by
  have hsub := index_sublist w.agent.subs t
  obtain ⟨h', hs, hsends, hch⟩ := sendEach_ok m (index w.agent.subs t) w.heap
    (fun c hc => hinv.chansOpen ho c (hsub.subset hc)) (hinv.nodup.sublist hsub)
  exact ⟨{ w with heap := h' }, by simp [Publish, ho, hs], rfl, hsends, hch⟩

theorem Close_spec (w : World) (hinv : Inv w) (ho : w.agent.closed = false) :
    ∃ w', Close w = .ok w' ∧
      w'.agent = { w.agent with closed := true, quit := true } ∧
      w'.heap.sends = w.heap.sends ∧
      ∀ i, w'.heap.chans[i]? = (w.heap.chans[i]?).map
        (fun ch => if i ∈ endpoints w.agent.subs then { ch with closed := true } else ch) := by
  obtain ⟨h', hs, hsends, hch⟩ := closeEach_ok (endpoints w.agent.subs) w.heap
    (hinv.chansOpen ho) hinv.nodup
  rw [← closeTopics_eq] at hs
  exact ⟨{ agent := { w.agent with closed := true, quit := true }, heap := h' },
    by simp [Close, ho, hinv.quitOpen ho, hs], rfl, hsends, hch⟩

theorem Subscribe_fst (t : String) (w : World) : (Subscribe t w).1 = w.heap.chans.length := rfl

theorem Subscribe_agent (t : String) (w : World) :
    (Subscribe t w).2.agent =
      { subs := assign w.agent.subs t (index w.agent.subs t ++ [w.heap.chans.length]),
        quit := w.agent.quit, closed := w.agent.closed } := rfl

theorem Subscribe_heap (t : String) (w : World) :
    (Subscribe t w).2.heap =
      { w.heap with chans := w.heap.chans ++ [{ closed := false, received := [] }] } := rfl

theorem inv_Publish (t m : String) (w w' : World) (hinv : Inv w)
    (hp : Publish t m w = .ok w') : Inv w' := by
  cases hcl : w.agent.closed with
  | true =>
    rw [Publish_closed t m w hcl] at hp
    injection hp with e
    exact e ▸ hinv
  | false =>
    obtain ⟨w2, hs, hag, _, hch⟩ := Publish_spec t m w hinv hcl
    rw [hp] at hs
    injection hs with e
    subst e
    have hlen := length_eq_of_pointwise hch
    refine ⟨hag ▸ hinv.nodup, ?_, ?_, ?_⟩
    · intro c hc
      rw [hlen]
      exact hinv.alloc c (hag ▸ hc)
    · intro hc'
      rw [hag] at hc' ⊢
      exact hinv.quitOpen hc'
    · intro hc' c hc
      rw [hag] at hc' hc
      obtain ⟨ch, hch0, hcl0⟩ := hinv.chansOpen hc' c hc
      by_cases hmem : c ∈ index w.agent.subs t
      · exact ⟨{ ch with received := ch.received ++ [m] }, by rw [hch, hch0]; simp [hmem], hcl0⟩
      · exact ⟨ch, by rw [hch, hch0]; simp [hmem], hcl0⟩

theorem inv_Close (w w' : World) (hinv : Inv w) (hp : Close w = .ok w') : Inv w' := by
  cases hcl : w.agent.closed with
  | true =>
    rw [Close_closed w hcl] at hp
    injection hp with e
    exact e ▸ hinv
  | false =>
    obtain ⟨w2, hs, hag, _, hch⟩ := Close_spec w hinv hcl
    rw [hp] at hs
    injection hs with e
    subst e
    have hlen := length_eq_of_pointwise hch
    refine ⟨by rw [hag]; exact hinv.nodup, ?_, ?_, ?_⟩
    · intro c hc
      rw [hlen]
      rw [hag] at hc
      exact hinv.alloc c hc
    · intro hc'
      rw [hag] at hc'
      simp at hc'
    · intro hc'
      rw [hag] at hc'
      simp at hc'

theorem inv_Subscribe (t : String) (w : World) (hinv : Inv w) : Inv (Subscribe t w).2 := by
  have hperm := endpoints_assign_perm w.agent.subs t w.heap.chans.length
  have hfresh : w.heap.chans.length ∉ endpoints w.agent.subs :=
    fun hm => Nat.lt_irrefl _ (hinv.alloc _ hm)
  refine ⟨?_, ?_, ?_, ?_⟩
  · rw [Subscribe_agent]
    exact hperm.nodup_iff.mpr (List.nodup_cons.mpr ⟨hfresh, hinv.nodup⟩)
  · intro c hc
    rw [Subscribe_agent] at hc
    rw [Subscribe_heap]
    simp only [List.length_append, List.length_singleton]
    rcases List.mem_cons.mp (hperm.subset hc) with rfl | hc
    · exact Nat.lt_succ_self _
    · exact Nat.lt_succ_of_lt (hinv.alloc c hc)
  · intro hc'
    exact hinv.quitOpen hc'
  · intro hc' c hc
    rw [Subscribe_agent] at hc
    rw [Subscribe_heap]
    rcases List.mem_cons.mp (hperm.subset hc) with rfl | hc
    · exact ⟨{ closed := false, received := [] }, by simp, rfl⟩
    · obtain ⟨ch, hch, hcl⟩ := hinv.chansOpen hc' c hc
      exact ⟨ch, by rw [List.getElem?_append_left (hinv.alloc c hc)]; exact hch, hcl⟩

theorem inv_step (o : Op) (w w' : World) (hinv : Inv w) (hs : step o w = .ok w') : Inv w' := by
  cases o with
  | publish t m => exact inv_Publish t m w w' hinv hs
  | subscribe t =>
    simp only [step] at hs
    injection hs with e
    exact e ▸ inv_Subscribe t w hinv
  | close => exact inv_Close w w' hinv hs

/-- From a state satisfying the invariant no call fails. -/
theorem step_ok (o : Op) (w : World) (hinv : Inv w) : ∃ w', step o w = .ok w' := by
  cases o with
  | publish t m =>
    cases hcl : w.agent.closed with
    | true => exact ⟨w, Publish_closed t m w hcl⟩
    | false =>
      obtain ⟨w', hs, _⟩ := Publish_spec t m w hinv hcl
      exact ⟨w', hs⟩
  | subscribe t => exact ⟨_, rfl⟩
  | close =>
    cases hcl : w.agent.closed with
    | true => exact ⟨w, Close_closed w hcl⟩
    | false =>
      obtain ⟨w', hs, _⟩ := Close_spec w hinv hcl
      exact ⟨w', hs⟩

theorem run_ok : ∀ (ops : List Op) (w : World), Inv w → ∃ w', run ops w = .ok w' ∧ Inv w' := by
  intro ops
  induction ops with
  | nil => intro w hinv; exact ⟨w, rfl, hinv⟩
  | cons o os ih =>
    intro w hinv
    obtain ⟨w1, hs⟩ := step_ok o w hinv
    obtain ⟨w2, hr, hinv2⟩ := ih w1 (inv_step o w w1 hinv hs)
    exact ⟨w2, by simp [run, hs, hr], hinv2⟩

theorem inv_of_run (ops : List Op) (w w' : World) (hinv : Inv w) (hr : run ops w = .ok w') :
    Inv w' := by
  obtain ⟨w2, hr2, hinv2⟩ := run_ok ops w hinv
  rw [hr] at hr2
  injection hr2 with e
  exact e ▸ hinv2

theorem inv_of_reachable (w : World) (hr : Reachable w) : Inv w := by
  obtain ⟨ops, hops⟩ := hr
  exact inv_of_run ops NewAgent w inv_NewAgent hops

/-! ## Reading the channel heap -/

theorem heap_ext {a b : Heap} (h1 : a.chans = b.chans) (h2 : a.sends = b.sends) : a = b := by
  cases a
  cases b
  simp_all

theorem received_append_of_mem {h h' : Heap} {L : List Nat} {m : String} {c : Nat}
    (hp : ∀ i, h'.chans[i]? = (h.chans[i]?).map
      (fun ch => if i ∈ L then { ch with received := ch.received ++ [m] } else ch))
    (hlt : c < h.chans.length) (hc : c ∈ L) : received h' c = received h c ++ [m] := by
  unfold received
  rw [hp c]
  cases hq : h.chans[c]? with
  | none => exact absurd (List.getElem?_eq_none_iff.mp hq) (Nat.not_le.mpr hlt)
  | some ch => simp [hc]

theorem chan_eq_of_not_mem {h h' : Heap} {L : List Nat} {f : Chan → Chan} {c : Nat}
    (hp : ∀ i, h'.chans[i]? = (h.chans[i]?).map (fun ch => if i ∈ L then f ch else ch))
    (hc : c ∉ L) : h'.chans[c]? = h.chans[c]? := by
  rw [hp c]
  cases h.chans[c]? <;> simp [hc]

theorem closed_flags_of_send {h h' : Heap} {L : List Nat} {m : String}
    (hp : ∀ i, h'.chans[i]? = (h.chans[i]?).map
      (fun ch => if i ∈ L then { ch with received := ch.received ++ [m] } else ch)) :
    h'.chans.map Chan.closed = h.chans.map Chan.closed := by
  apply List.ext_getElem?
  intro i
  rw [List.getElem?_map, List.getElem?_map, hp i]
  cases h.chans[i]? with
  | none => rfl
  | some ch => by_cases hi : i ∈ L <;> simp [hi]

theorem received_of_close {h h' : Heap} {L : List Nat}
    (hp : ∀ i, h'.chans[i]? = (h.chans[i]?).map
      (fun ch => if i ∈ L then { ch with closed := true } else ch)) (c : Nat) :
    received h' c = received h c := by
  unfold received
  rw [hp c]
  cases h.chans[c]? with
  | none => rfl
  | some ch => by_cases hi : c ∈ L <;> simp [hi]

theorem received_Subscribe (t : String) (w : World) (c : Nat) :
    received (Subscribe t w).2.heap c = received w.heap c := by
  unfold received
  rw [Subscribe_heap]
  by_cases hlt : c < w.heap.chans.length
  · simp only [List.getElem?_append_left hlt]
  · have hle : w.heap.chans.length ≤ c := Nat.le_of_not_lt hlt
    rw [List.getElem?_eq_none hle]
    simp only [List.getElem?_append_right hle]
    cases c - w.heap.chans.length with
    | zero => rfl
    | succ n => rfl

theorem endpoints_perm {m m' : List (String × List Nat)} (hp : List.Perm m' m) :
    List.Perm (endpoints m') (endpoints m) := by
  induction hp with
  | nil => exact List.Perm.refl _
  | cons x _ ih =>
    obtain ⟨k, v⟩ := x
    exact ih.append_left v
  | swap x y l =>
    obtain ⟨k, v⟩ := x
    obtain ⟨k2, v2⟩ := y
    simp only [endpoints, ← List.append_assoc]
    exact List.Perm.append_right _ List.perm_append_comm
  | trans _ _ ih1 ih2 => exact ih1.trans ih2

/-- A successful run of the closing loops yields the same heap whichever order
the iteration over the map takes. -/
theorem closeTopics_perm {m m' : List (String × List Nat)} {h h' : Heap}
    (hp : List.Perm m' m) (hc : closeTopics m h = .ok h') : closeTopics m' h = .ok h' := by
  rw [closeTopics_eq] at hc ⊢
  obtain ⟨hopen, hnd⟩ := closeEach_ok_inv _ _ _ hc
  have hperm := endpoints_perm hp
  obtain ⟨h1, hs1, hsend1, hch1⟩ := closeEach_ok (endpoints m) h hopen hnd
  obtain ⟨h2, hs2, hsend2, hch2⟩ := closeEach_ok (endpoints m') h
    (fun c hc => hopen c (hperm.subset hc)) (hperm.nodup_iff.mpr hnd)
  rw [hc] at hs1
  injection hs1 with e
  subst e
  rw [hs2]
  have hchans : h2.chans = h'.chans := by
    apply List.ext_getElem?
    intro i
    rw [hch1, hch2]
    have hiff : i ∈ endpoints m' ↔ i ∈ endpoints m := hperm.mem_iff
    simp only [hiff]
  exact congrArg Except.ok (heap_ext hchans (hsend2.trans hsend1.symm))

/-! ## Sample states are reachable -/

theorem sampleOpen_reachable : Reachable sampleOpen := ⟨sampleOps, rfl⟩

theorem sampleClosed_reachable : Reachable sampleClosed := ⟨sampleOps ++ [Op.close], rfl⟩

theorem mainBeforeClose_reachable : Reachable mainBeforeClose := ⟨mainOps, rfl⟩

/-! ## The claims -/

/-- C1: in every open state of the broker, `Publish(T, M)` returns and hands `M`
to the endpoints registered under `T`, one hand-off per endpoint and in
registration order: the hand-offs it adds are exactly `(c, M)` for `c` running
through the topic's endpoint sequence, which has no repetition; each of these
endpoints has received `M` once more and nothing else changes: the broker's
fields, every other channel (so the endpoints of other topics), and the closed
flags. An endpoint subscribed afterwards has received nothing and is none of the
endpoints delivered to. With no endpoint under `T` the state is unchanged. -/
theorem C1_publish_fan_out (w : World) (t m : String) (hr : Reachable w)
    (ho : w.agent.closed = false) :
    ∃ w', Publish t m w = .ok w' ∧ w'.agent = w.agent ∧
      w'.heap.sends = w.heap.sends ++ (index w.agent.subs t).map (fun c => (c, m)) ∧
      (index w.agent.subs t).Nodup ∧
      (∀ c ∈ index w.agent.subs t, received w'.heap c = received w.heap c ++ [m]) ∧
      (∀ c, c ∉ index w.agent.subs t → w'.heap.chans[c]? = w.heap.chans[c]?) ∧
      (∀ t2 c, t2 ≠ t → c ∈ index w.agent.subs t2 → received w'.heap c = received w.heap c) ∧
      w'.heap.chans.map Chan.closed = w.heap.chans.map Chan.closed ∧
      (∀ t2, received (Subscribe t2 w').2.heap (Subscribe t2 w').1 = [] ∧
        (Subscribe t2 w').1 ∉ index w.agent.subs t) ∧
      (index w.agent.subs t = [] → w' = w) := by
  have hinv := inv_of_reachable w hr
  obtain ⟨w', hs, hag, hsends, hch⟩ := Publish_spec t m w hinv ho
  have hsub := index_sublist w.agent.subs t
  have hlen := length_eq_of_pointwise hch
  refine ⟨w', hs, hag, hsends, hinv.nodup.sublist hsub, ?_, ?_, ?_, closed_flags_of_send hch,
    ?_, ?_⟩
  · intro c hc
    exact received_append_of_mem hch (hinv.alloc c (hsub.subset hc)) hc
  · intro c hc
    exact chan_eq_of_not_mem hch hc
  · intro t2 c hne hc
    have hnot : c ∉ index w.agent.subs t := index_disjoint w.agent.subs t2 t c hinv.nodup hne hc
    unfold received
    rw [chan_eq_of_not_mem hch hnot]
  · intro t2
    constructor
    · unfold received
      rw [Subscribe_heap, Subscribe_fst]
      simp
    · intro hmem
      rw [Subscribe_fst, hlen] at hmem
      exact Nat.lt_irrefl _ (hinv.alloc _ (hsub.subset hmem))
  · intro hnil
    have hchans : w'.heap.chans = w.heap.chans := by
      apply List.ext_getElem?
      intro i
      rw [hch i, hnil]
      cases w.heap.chans[i]? <;> simp
    have hsends' : w'.heap.sends = w.heap.sends := by rw [hsends, hnil]; simp
    have hheap := heap_ext hchans hsends'
    cases w'
    cases w
    simp_all

theorem C1_publish_fan_out_witness :
    Reachable sampleOpen ∧ sampleOpen.agent.closed = false ∧
    ∃ w', Publish "foo" "hello" sampleOpen = .ok w' ∧ w'.agent = sampleOpen.agent ∧
      w'.heap.sends = sampleOpen.heap.sends ++
        (index sampleOpen.agent.subs "foo").map (fun c => (c, "hello")) ∧
      (index sampleOpen.agent.subs "foo").Nodup ∧
      (∀ c ∈ index sampleOpen.agent.subs "foo",
        received w'.heap c = received sampleOpen.heap c ++ ["hello"]) ∧
      (∀ c, c ∉ index sampleOpen.agent.subs "foo" →
        w'.heap.chans[c]? = sampleOpen.heap.chans[c]?) ∧
      (∀ t2 c, t2 ≠ "foo" → c ∈ index sampleOpen.agent.subs t2 →
        received w'.heap c = received sampleOpen.heap c) ∧
      w'.heap.chans.map Chan.closed = sampleOpen.heap.chans.map Chan.closed ∧
      (∀ t2, received (Subscribe t2 w').2.heap (Subscribe t2 w').1 = [] ∧
        (Subscribe t2 w').1 ∉ index sampleOpen.agent.subs "foo") ∧
      (index sampleOpen.agent.subs "foo" = [] → w' = sampleOpen) :=
  ⟨sampleOpen_reachable, rfl, C1_publish_fan_out sampleOpen "foo" "hello" sampleOpen_reachable rfl⟩

/-- C2: on a closed broker `Publish` returns the state it was given: nothing is
handed to any endpoint and the map, the closed flag and every channel are as before. -/
theorem C2_publish_after_close (w : World) (t m : String) (hc : w.agent.closed = true) :
    Publish t m w = .ok w := by
  simp [Publish, hc]

theorem C2_publish_after_close_witness :
    sampleClosed.agent.closed = true ∧ Publish "foo" "late" sampleClosed = .ok sampleClosed :=
  ⟨rfl, C2_publish_after_close sampleClosed "foo" "late" rfl⟩

/-- C3: in every open state reachable from `NewAgent`, `Close` returns, sets
`closed` to true and leaves the topic-to-endpoint map as it was; the endpoints
in the map are pairwise distinct, each of them was open before and is closed
after, and the closing loops call `close` once per element of that sequence,
so each is closed once; the channels outside the map, the messages
received on every channel and the hand-off sequence are unchanged; and the
resulting heap is the same for every order in which the map is iterated. -/
theorem C3_close_closes_every_endpoint (w : World) (hr : Reachable w)
    (ho : w.agent.closed = false) :
    ∃ w', Close w = .ok w' ∧ w'.agent.closed = true ∧ w'.agent.subs = w.agent.subs ∧
      (endpoints w.agent.subs).Nodup ∧
      (∀ c ∈ endpoints w.agent.subs, isOpen w.heap c ∧ isClosed w'.heap c) ∧
      (∀ c, c ∉ endpoints w.agent.subs → w'.heap.chans[c]? = w.heap.chans[c]?) ∧
      (∀ c, received w'.heap c = received w.heap c) ∧
      w'.heap.sends = w.heap.sends ∧
      closeEach (endpoints w.agent.subs) w.heap = .ok w'.heap ∧
      (∀ m', List.Perm m' w.agent.subs → closeTopics m' w.heap = .ok w'.heap) := by
  have hinv := inv_of_reachable w hr
  obtain ⟨w', hs, hag, hsends, hch⟩ := Close_spec w hinv ho
  have hloop : closeTopics w.agent.subs w.heap = .ok w'.heap := by
    have hs' := hs
    simp only [Close, ho, hinv.quitOpen ho] at hs'
    cases hq : closeTopics w.agent.subs w.heap with
    | error e => simp [hq] at hs'
    | ok h1 =>
      simp [hq] at hs'
      rw [← hs']
  refine ⟨w', hs, by rw [hag], by rw [hag], hinv.nodup, ?_, ?_, received_of_close hch, hsends,
    by rw [← closeTopics_eq]; exact hloop, fun m' hperm => closeTopics_perm hperm hloop⟩
  · intro c hc
    have hopen := hinv.chansOpen ho c hc
    refine ⟨hopen, ?_⟩
    obtain ⟨ch, hch0, _⟩ := hopen
    exact ⟨{ ch with closed := true }, by rw [hch c, hch0]; simp [hc], rfl⟩
  · intro c hc
    exact chan_eq_of_not_mem hch hc

theorem C3_close_closes_every_endpoint_witness :
    Reachable mainBeforeClose ∧ mainBeforeClose.agent.closed = false ∧
    ∃ w', Close mainBeforeClose = .ok w' ∧ w'.agent.closed = true ∧
      w'.agent.subs = mainBeforeClose.agent.subs ∧
      (endpoints mainBeforeClose.agent.subs).Nodup ∧
      (∀ c ∈ endpoints mainBeforeClose.agent.subs, isOpen mainBeforeClose.heap c ∧ isClosed w'.heap c) ∧
      (∀ c, c ∉ endpoints mainBeforeClose.agent.subs →
        w'.heap.chans[c]? = mainBeforeClose.heap.chans[c]?) ∧
      (∀ c, received w'.heap c = received mainBeforeClose.heap c) ∧
      w'.heap.sends = mainBeforeClose.heap.sends ∧
      closeEach (endpoints mainBeforeClose.agent.subs) mainBeforeClose.heap = .ok w'.heap ∧
      (∀ m', List.Perm m' mainBeforeClose.agent.subs →
        closeTopics m' mainBeforeClose.heap = .ok w'.heap) :=
  ⟨mainBeforeClose_reachable, rfl, C3_close_closes_every_endpoint mainBeforeClose mainBeforeClose_reachable rfl⟩

/-- C4: `Close` is idempotent: in every state, `Close` followed by `Close` gives
the result of a single `Close`; and on a closed broker `Close` returns the state
it was given, so no channel is closed again and there is no failure. -/
theorem C4_close_idempotent (w : World) :
    (Close w >>= Close) = Close w ∧ (w.agent.closed = true → Close w = .ok w) := by
  have hclosed : ∀ v : World, v.agent.closed = true → Close v = .ok v :=
    fun v hv => by simp [Close, hv]
  refine ⟨?_, hclosed w⟩
  cases hq : Close w with
  | error e => rfl
  | ok w' =>
    show Close w' = .ok w'
    apply hclosed
    cases hcl : w.agent.closed with
    | true =>
      rw [hclosed w hcl] at hq
      injection hq with e
      exact e ▸ hcl
    | false =>
      simp only [Close, hcl] at hq
      cases hquit : w.agent.quit with
      | true => simp [hquit] at hq
      | false =>
        cases hct : closeTopics w.agent.subs w.heap with
        | error e => simp [hquit, hct] at hq
        | ok h1 =>
          simp [hquit, hct] at hq
          rw [← hq]

theorem C4_close_idempotent_witness :
    ((Close sampleOpen >>= Close) = Close sampleOpen ∧
      (sampleOpen.agent.closed = true → Close sampleOpen = .ok sampleOpen)) ∧
    ((Close sampleClosed >>= Close) = Close sampleClosed ∧
      (sampleClosed.agent.closed = true → Close sampleClosed = .ok sampleClosed)) ∧
    Close sampleClosed = .ok sampleClosed :=
  ⟨C4_close_idempotent sampleOpen, C4_close_idempotent sampleClosed,
    (C4_close_idempotent sampleClosed).2 rfl⟩

/-- C5: in every state and for every topic `T` (the empty string included),
`Subscribe(T)` returns a channel that did not exist before, is open and has
received nothing; the sequence under `T` becomes the old one with this channel
appended; the entries of all other topics, the closed flag, the `quit` channel,
the existing channels and the hand-off sequence are unchanged; and in a
reachable state the returned channel is not yet in the map. -/
theorem C5_subscribe_appends (w : World) (t : String) :
    w.heap.chans[(Subscribe t w).1]? = none ∧
    (Subscribe t w).2.heap.chans[(Subscribe t w).1]? = some { closed := false, received := [] } ∧
    isOpen (Subscribe t w).2.heap (Subscribe t w).1 ∧
    received (Subscribe t w).2.heap (Subscribe t w).1 = [] ∧
    index (Subscribe t w).2.agent.subs t = index w.agent.subs t ++ [(Subscribe t w).1] ∧
    (∀ t2, t2 ≠ t → lookup (Subscribe t w).2.agent.subs t2 = lookup w.agent.subs t2) ∧
    (Subscribe t w).2.agent.closed = w.agent.closed ∧
    (Subscribe t w).2.agent.quit = w.agent.quit ∧
    (Subscribe t w).2.heap.chans = w.heap.chans ++ [{ closed := false, received := [] }] ∧
    (Subscribe t w).2.heap.sends = w.heap.sends ∧
    (Reachable w → (Subscribe t w).1 ∉ endpoints w.agent.subs) := by
  have hnew : (Subscribe t w).2.heap.chans[(Subscribe t w).1]? =
      some { closed := false, received := [] } := by
    rw [Subscribe_heap, Subscribe_fst]
    simp
  refine ⟨?_, hnew, ⟨_, hnew, rfl⟩, ?_, ?_, ?_, rfl, rfl, rfl, rfl, ?_⟩
  · rw [Subscribe_fst]
    exact List.getElem?_eq_none (le_refl _)
  · unfold received
    rw [hnew]
  · rw [Subscribe_agent, Subscribe_fst]
    exact index_assign_self _ _ _
  · intro t2 hne
    rw [Subscribe_agent]
    exact lookup_assign_ne _ _ _ _ hne
  · intro hr hmem
    rw [Subscribe_fst] at hmem
    exact Nat.lt_irrefl _ ((inv_of_reachable w hr).alloc _ hmem)

theorem C5_subscribe_appends_witness :
    (Subscribe "" sampleClosed).1 = 3 ∧
    index (Subscribe "" sampleClosed).2.agent.subs "" = [3] ∧
    index (Subscribe "foo" sampleOpen).2.agent.subs "foo" =
      index sampleOpen.agent.subs "foo" ++ [(Subscribe "foo" sampleOpen).1] ∧
    (Subscribe "foo" sampleOpen).1 ∉ endpoints sampleOpen.agent.subs :=
  ⟨rfl, rfl, (C5_subscribe_appends sampleOpen "foo").2.2.2.2.1,
    (C5_subscribe_appends sampleOpen "foo").2.2.2.2.2.2.2.2.2.2 sampleOpen_reachable⟩

/-! ## A closed broker -/

theorem received_append_fresh (h h' : Heap) (n : Nat)
    (hch : h'.chans = h.chans ++ List.replicate n { closed := false, received := [] })
    (c : Nat) : received h' c = received h c := by
  unfold received
  rw [hch]
  by_cases hlt : c < h.chans.length
  · rw [List.getElem?_append_left hlt]
  · have hle : h.chans.length ≤ c := Nat.le_of_not_lt hlt
    rw [List.getElem?_eq_none hle, List.getElem?_append_right hle, List.getElem?_replicate]
    by_cases hn : c - h.chans.length < n <;> simp [hn]

/-- On a closed broker every sequence of calls succeeds, the broker stays
closed, nothing is handed off, and the heap only grows by the open, empty
channels made by `Subscribe`. -/
theorem run_closed : ∀ (ops : List Op) (w : World), w.agent.closed = true →
    ∃ w' n, run ops w = .ok w' ∧ w'.agent.closed = true ∧ w'.heap.sends = w.heap.sends ∧
      w'.heap.chans = w.heap.chans ++ List.replicate n { closed := false, received := [] } := by
  intro ops
  induction ops with
  | nil => intro w hc; exact ⟨w, 0, rfl, hc, rfl, by simp⟩
  | cons o os ih =>
    intro w hc
    cases o with
    | publish t m =>
      obtain ⟨w', n, hr, h1, h2, h3⟩ := ih w hc
      exact ⟨w', n, by simp [run, step, Publish_closed t m w hc, hr], h1, h2, h3⟩
    | close =>
      obtain ⟨w', n, hr, h1, h2, h3⟩ := ih w hc
      exact ⟨w', n, by simp [run, step, Close_closed w hc, hr], h1, h2, h3⟩
    | subscribe t =>
      obtain ⟨w', n, hr, h1, h2, h3⟩ := ih (Subscribe t w).2 hc
      refine ⟨w', n + 1, by simp [run, step, hr], h1, h2, ?_⟩
      rw [h3, Subscribe_heap, List.replicate_succ]
      simp

theorem Publish_agent (t m : String) (v v' : World) (hp : Publish t m v = .ok v') :
    v'.agent = v.agent := by
  unfold Publish at hp
  cases hcl : v.agent.closed with
  | true =>
    simp [hcl] at hp
    rw [← hp]
  | false =>
    cases hq : sendEach m (index v.agent.subs t) v.heap with
    | error e => simp [hcl, hq] at hp
    | ok h1 =>
      simp [hcl, hq] at hp
      rw [← hp]

theorem Close_subs (v v' : World) (hp : Close v = .ok v') : v'.agent.subs = v.agent.subs := by
  unfold Close at hp
  cases hcl : v.agent.closed with
  | true =>
    simp [hcl] at hp
    rw [← hp]
  | false =>
    cases hquit : v.agent.quit with
    | true => simp [hcl, hquit] at hp
    | false =>
      cases hq : closeTopics v.agent.subs v.heap with
      | error e => simp [hcl, hquit, hq] at hp
      | ok h1 =>
        simp [hcl, hquit, hq] at hp
        rw [← hp]

theorem lookup_assign_isSome (m : List (String × List Nat)) (k t : String) (v : List Nat) :
    (lookup (assign m k v) t).isSome = true ↔ ((lookup m t).isSome = true ∨ t = k) := by
  by_cases htk : t = k
  · subst htk
    simp [lookup_assign_self]
  · rw [lookup_assign_ne m k t v htk]
    simp [htk]

theorem run_entries : ∀ (ops : List Op) (w w' : World), run ops w = .ok w' →
    ∀ t, (lookup w'.agent.subs t).isSome = true ↔
      ((lookup w.agent.subs t).isSome = true ∨ Op.subscribe t ∈ ops) := by
  intro ops
  induction ops with
  | nil =>
    intro w w' hr t
    simp only [run] at hr
    injection hr with e
    subst e
    simp
  | cons o os ih =>
    intro w w' hr t
    simp only [run] at hr
    cases hs : step o w with
    | error e => simp [hs] at hr
    | ok w1 =>
      simp only [hs] at hr
      rw [ih w1 w' hr t]
      cases o with
      | publish t2 m =>
        rw [Publish_agent t2 m w w1 hs]
        simp
      | close =>
        rw [Close_subs w w1 hs]
        simp
      | subscribe t2 =>
        simp only [step] at hs
        injection hs with e
        subst e
        rw [Subscribe_agent]
        simp only [lookup_assign_isSome, List.mem_cons, Op.subscribe.injEq]
        tauto

/-- C6: on a closed broker `Subscribe(T)` still makes an open channel that has
received nothing, and after every further sequence of `Publish`, `Subscribe`
and `Close` calls (all of which return) that channel is still open and has
still received nothing; indeed nothing at all has been handed off. -/
theorem C6_subscribe_after_close (w : World) (t : String) (hc : w.agent.closed = true) :
    isOpen (Subscribe t w).2.heap (Subscribe t w).1 ∧
    received (Subscribe t w).2.heap (Subscribe t w).1 = [] ∧
    ∀ ops, ∃ w', run ops (Subscribe t w).2 = .ok w' ∧
      isOpen w'.heap (Subscribe t w).1 ∧ received w'.heap (Subscribe t w).1 = [] ∧
      w'.heap.sends = w.heap.sends := by
  have hnew : (Subscribe t w).2.heap.chans[(Subscribe t w).1]? =
      some { closed := false, received := [] } := by
    rw [Subscribe_heap, Subscribe_fst]
    simp
  have hrecv : received (Subscribe t w).2.heap (Subscribe t w).1 = [] := by
    unfold received
    rw [hnew]
  refine ⟨⟨_, hnew, rfl⟩, hrecv, ?_⟩
  intro ops
  obtain ⟨w', n, hr, _, hsends, hch⟩ := run_closed ops (Subscribe t w).2 hc
  have hlt : (Subscribe t w).1 < (Subscribe t w).2.heap.chans.length := by
    rw [Subscribe_heap, Subscribe_fst]
    simp
  refine ⟨w', hr, ⟨{ closed := false, received := [] }, ?_, rfl⟩, ?_, hsends⟩
  · rw [hch, List.getElem?_append_left hlt]
    exact hnew
  · rw [received_append_fresh _ _ n hch]
    exact hrecv

theorem C6_subscribe_after_close_witness :
    sampleClosed.agent.closed = true ∧
    ∃ w', run [Op.publish "baz" "x", Op.close, Op.subscribe "baz", Op.publish "baz" "y"]
        (Subscribe "baz" sampleClosed).2 = .ok w' ∧
      isOpen w'.heap (Subscribe "baz" sampleClosed).1 ∧
      received w'.heap (Subscribe "baz" sampleClosed).1 = [] ∧
      w'.heap.sends = sampleClosed.heap.sends :=
  ⟨rfl, (C6_subscribe_after_close sampleClosed "baz" rfl).2.2 _⟩

/-- C7, as stated, fails: on the closed broker `sampleClosed`, reached from
`NewAgent`, a `Subscribe` call returns normally and changes the topic-to-endpoint map. -/
theorem C7_registry_frozen_counterexample :
    Reachable sampleClosed ∧ sampleClosed.agent.closed = true ∧
    ∃ w', step (Op.subscribe "baz") sampleClosed = .ok w' ∧
      w'.agent.subs = [("foo", [0, 2]), ("bar", [1]), ("baz", [3])] ∧
      w'.agent.subs ≠ sampleClosed.agent.subs :=
  ⟨sampleClosed_reachable, rfl, _, rfl, rfl, by decide⟩

/-- C7 (amended): once the broker is closed, `Publish` and `Close` return the
state they were given, so they leave the topic-to-endpoint map unchanged;
`Subscribe` changes the map only by appending the new channel to the sequence
of its topic, the entries of the other topics being unchanged; and after every
sequence of `Publish`, `Subscribe` and `Close` calls the broker is still closed,
the hand-off sequence is the same and every channel has received what it had
received before: no endpoint is sent a message again. -/
theorem C7_closed_broker_frame (w : World) (hc : w.agent.closed = true) :
    (∀ t m, Publish t m w = .ok w) ∧ Close w = .ok w ∧
    (∀ t, index (Subscribe t w).2.agent.subs t = index w.agent.subs t ++ [(Subscribe t w).1] ∧
      ∀ t2, t2 ≠ t → lookup (Subscribe t w).2.agent.subs t2 = lookup w.agent.subs t2) ∧
    (∀ ops, ∃ w', run ops w = .ok w' ∧ w'.agent.closed = true ∧
      w'.heap.sends = w.heap.sends ∧ ∀ c, received w'.heap c = received w.heap c) := by
  refine ⟨fun t m => Publish_closed t m w hc, Close_closed w hc, ?_, ?_⟩
  · intro t
    constructor
    · rw [Subscribe_agent, Subscribe_fst]
      exact index_assign_self _ _ _
    · intro t2 hne
      rw [Subscribe_agent]
      exact lookup_assign_ne _ _ _ _ hne
  · intro ops
    obtain ⟨w', n, hr, hcl, hsends, hch⟩ := run_closed ops w hc
    exact ⟨w', hr, hcl, hsends, received_append_fresh _ _ n hch⟩

theorem C7_closed_broker_frame_witness :
    sampleClosed.agent.closed = true ∧
    Publish "foo" "late" sampleClosed = .ok sampleClosed ∧
    Close sampleClosed = .ok sampleClosed ∧
    ∃ w', run [Op.subscribe "foo", Op.publish "foo" "late", Op.close] sampleClosed = .ok w' ∧
      w'.agent.closed = true ∧ w'.heap.sends = sampleClosed.heap.sends ∧
      ∀ c, received w'.heap c = received sampleClosed.heap c :=
  ⟨rfl, (C7_closed_broker_frame sampleClosed rfl).1 "foo" "late",
    (C7_closed_broker_frame sampleClosed rfl).2.1,
    (C7_closed_broker_frame sampleClosed rfl).2.2.2 _⟩

/-- C8: every sequence of `Publish`, `Subscribe` and `Close` calls from
`NewAgent` returns, and in the state it reaches a topic has an entry in the map
if and only if some `Subscribe` call of the sequence targeted it; `NewAgent` has
no entry, and neither `Publish` (to any topic, known or not) nor `Close`
changes the map, in any state. -/
theorem C8_topic_entries (ops : List Op) :
    (∃ w, run ops NewAgent = .ok w ∧
      ∀ t, (lookup w.agent.subs t).isSome = true ↔ Op.subscribe t ∈ ops) ∧
    NewAgent.agent.subs = [] ∧
    (∀ t m v v', Publish t m v = .ok v' → v'.agent.subs = v.agent.subs) ∧
    (∀ v v', Close v = .ok v' → v'.agent.subs = v.agent.subs) := by
  refine ⟨?_, rfl, ?_, Close_subs⟩
  · obtain ⟨w, hr, _⟩ := run_ok ops NewAgent inv_NewAgent
    refine ⟨w, hr, ?_⟩
    intro t
    rw [run_entries ops NewAgent w hr t]
    simp [NewAgent, lookup]
  · intro t m v v' hp
    rw [Publish_agent t m v v' hp]

theorem C8_topic_entries_witness :
    ∃ w, run [Op.publish "nobody" "x", Op.subscribe "foo", Op.close] NewAgent = .ok w ∧
      ∀ t, (lookup w.agent.subs t).isSome = true ↔
        Op.subscribe t ∈ [Op.publish "nobody" "x", Op.subscribe "foo", Op.close] :=
  (C8_topic_entries [Op.publish "nobody" "x", Op.subscribe "foo", Op.close]).1

theorem run_received : ∀ (ops : List Op) (w : World) (t : String) (c : Nat),
    Inv w → w.agent.closed = false → c ∈ index w.agent.subs t → noClose ops = true →
    ∃ w', run ops w = .ok w' ∧ w'.agent.closed = false ∧ c ∈ index w'.agent.subs t ∧
      received w'.heap c = received w.heap c ++ publishedTo t ops := by
  intro ops
  induction ops with
  | nil =>
    intro w t c _ ho hc _
    exact ⟨w, rfl, ho, hc, by simp [publishedTo]⟩
  | cons o os ih =>
    intro w t c hinv ho hc hnc
    cases o with
    | close => simp [noClose] at hnc
    | publish t2 m =>
      have hnc' : noClose os = true := by simpa [noClose] using hnc
      obtain ⟨w1, hs, hag, _, hch⟩ := Publish_spec t2 m w hinv ho
      have hinv1 := inv_Publish t2 m w w1 hinv hs
      obtain ⟨w', hr, ho', hc', hrecv⟩ := ih w1 t c hinv1 (hag ▸ ho) (hag ▸ hc) hnc'
      refine ⟨w', by simp [run, step, hs, hr], ho', hc', ?_⟩
      rw [hrecv]
      have hlt := hinv.alloc c ((index_sublist w.agent.subs t).subset hc)
      by_cases ht : t2 = t
      · subst ht
        rw [received_append_of_mem hch hlt hc]
        simp [publishedTo]
      · have hnot : c ∉ index w.agent.subs t2 :=
          index_disjoint w.agent.subs t t2 c hinv.nodup (fun e => ht e.symm) hc
        have hsame : received w1.heap c = received w.heap c := by
          unfold received
          rw [chan_eq_of_not_mem hch hnot]
        rw [hsame]
        simp [publishedTo, ht]
    | subscribe t2 =>
      have hnc' : noClose os = true := by simpa [noClose] using hnc
      have hinv1 := inv_Subscribe t2 w hinv
      have hc1 : c ∈ index (Subscribe t2 w).2.agent.subs t := by
        rw [Subscribe_agent]
        by_cases ht : t = t2
        · subst ht
          rw [index_assign_self]
          exact List.mem_append_left _ hc
        · rw [index_assign_ne _ _ _ _ ht]
          exact hc
      obtain ⟨w', hr, ho', hc', hrecv⟩ := ih (Subscribe t2 w).2 t c hinv1 ho hc1 hnc'
      refine ⟨w', by simp [run, step, hr], ho', hc', ?_⟩
      rw [hrecv, received_Subscribe]
      simp [publishedTo]

/-- C9: from every open state of the broker, every sequence of `Publish` and
`Subscribe` calls (no `Close`) returns, and an endpoint that was registered
under `T` at the start has then received, after what it had received before,
exactly the messages published to `T` by the sequence, in the order of the
calls and each once; the endpoint is still registered under `T`. -/
theorem C9_per_topic_order (w : World) (t : String) (c : Nat) (ops : List Op)
    (hr : Reachable w) (ho : w.agent.closed = false) (hc : c ∈ index w.agent.subs t)
    (hnc : noClose ops = true) :
    ∃ w', run ops w = .ok w' ∧ c ∈ index w'.agent.subs t ∧
      received w'.heap c = received w.heap c ++ publishedTo t ops := by
  obtain ⟨w', hrun, _, hc', hrecv⟩ := run_received ops w t c (inv_of_reachable w hr) ho hc hnc
  exact ⟨w', hrun, hc', hrecv⟩

theorem C9_per_topic_order_witness :
    Reachable sampleOpen ∧ sampleOpen.agent.closed = false ∧
    2 ∈ index sampleOpen.agent.subs "foo" ∧ noClose sampleTraffic = true ∧
    publishedTo "foo" sampleTraffic = ["m1", "m2", "m3"] ∧
    ∃ w', run sampleTraffic sampleOpen = .ok w' ∧ 2 ∈ index w'.agent.subs "foo" ∧
      received w'.heap 2 = received sampleOpen.heap 2 ++ publishedTo "foo" sampleTraffic :=
  ⟨sampleOpen_reachable, rfl, by decide, rfl, by decide,
    C9_per_topic_order sampleOpen "foo" 2 sampleTraffic sampleOpen_reachable rfl (by decide) rfl⟩

/-- C10: every sequence of `Publish`, `Subscribe` and `Close` calls from
`NewAgent` returns without failure, and in the state it reaches the registered
endpoints are pairwise distinct and, if the broker is open, all open and so is
the `quit` channel; hence a further `Publish` (to any topic) or `Close` returns
without failure: no send on a closed channel and no second close occurs. -/
theorem C10_no_failure (ops : List Op) :
    ∃ w, run ops NewAgent = .ok w ∧
      (w.agent.closed = false → ∀ c ∈ endpoints w.agent.subs, isOpen w.heap c) ∧
      (w.agent.closed = false → w.agent.quit = false) ∧
      (endpoints w.agent.subs).Nodup ∧
      (∀ t m, ∃ w', Publish t m w = .ok w') ∧
      (∃ w', Close w = .ok w') := by
  obtain ⟨w, hr, hinv⟩ := run_ok ops NewAgent inv_NewAgent
  exact ⟨w, hr, hinv.chansOpen, hinv.quitOpen, hinv.nodup,
    fun t m => step_ok (Op.publish t m) w hinv, step_ok Op.close w hinv⟩

theorem C10_no_failure_witness :
    ∃ w, run sampleOps NewAgent = .ok w ∧
      (w.agent.closed = false → ∀ c ∈ endpoints w.agent.subs, isOpen w.heap c) ∧
      (w.agent.closed = false → w.agent.quit = false) ∧
      (endpoints w.agent.subs).Nodup ∧
      (∀ t m, ∃ w', Publish t m w = .ok w') ∧
      (∃ w', Close w = .ok w') :=
  C10_no_failure sampleOps

end PubSub
